import Mathlib

/-!
# Verification of the ZipVoice EPUB-to-audiobook pipeline (`app_short.py`)

Shallow embedding of the text-chunking, synthesis-dispatch and WAV-merge
logic of `src/app_short.py`, together with theorems settling the frozen
claims about the program.

Strings are modelled as `List Char`; WAV frame data as `List Nat` (one
entry per byte).  The external synthesis engine (a subprocess) is modelled
as an oracle `syn : Nat → Nat → Bool` giving the result of the engine's
`attempt`-th invocation for a given chunk number; the script in fact makes
exactly one invocation per chunk.
-/

namespace AppShort

/-- ASCII whitespace, as matched by Python's `\s` and `str.strip()`
(restricted to the ASCII range, which is all the claims exercise):
space, tab, newline, carriage return, vertical tab, form feed. -/
def isSpaceChar (c : Char) : Bool :=
  c == ' ' || c == '\t' || c == '\n' || c == '\r' || c.toNat == 11 || c.toNat == 12

/-- The sentence-ending punctuation class `[.!?]` of
`re.split(r'[.!?]\s+', text)` in `chunk_text` (app_short.py line 56). -/
def isSentEnd (c : Char) : Bool :=
  c == '.' || c == '!' || c == '?'

/-- Whether a list of characters starts with a whitespace character. -/
def headIsSpace : List Char → Bool
  | [] => false
  | c :: _ => isSpaceChar c

/-- Whether a list of characters ends with a whitespace character. -/
def lastIsSpace (l : List Char) : Bool :=
  headIsSpace l.reverse

/-- Python's `str.strip()`: drop leading and trailing whitespace
(app_short.py line 64). -/
def strip (l : List Char) : List Char :=
  ((l.dropWhile isSpaceChar).reverse.dropWhile isSpaceChar).reverse

/-- One left-to-right scan implementing `re.split(r'[.!?]\s+', text)`:
a separator is one sentence-ending character followed by a maximal
non-empty whitespace run; the separator is removed and the text between
separators is returned.  `fuel` only forces structural recursion: every
step consumes at least one character, so `fuel = text.length + 1` (as
supplied by `splitSentences`) never runs out. -/
def splitAuxF : Nat → List Char → List Char → List (List Char)
  | 0, l, acc => [acc.reverse ++ l]
  | _ + 1, [], acc => [acc.reverse]
  | fuel + 1, c :: rest, acc =>
      if isSentEnd c && headIsSpace rest then
        acc.reverse :: splitAuxF fuel (rest.dropWhile isSpaceChar) []
      else
        splitAuxF fuel rest (c :: acc)

/-- `sentences = re.split(r'[.!?]\s+', text)` (app_short.py line 57). -/
def splitSentences (text : List Char) : List (List Char) :=
  splitAuxF (text.length + 1) text []

/-- `' '.join(pieces)`: join with single spaces (app_short.py lines 72, 82). -/
def sjoin : List (List Char) → List Char
  | [] => []
  | [c] => c
  | c :: c2 :: rest => c ++ ' ' :: sjoin (c2 :: rest)

/-- State of the accumulation loop of `chunk_text`:
`(chunks, current_chunk, current_length)` (app_short.py lines 59-61). -/
def ChunkState : Type :=
  List (List Char) × List (List Char) × Nat

/-- The body of the `for sentence in sentences` loop of `chunk_text`
(app_short.py lines 63-78): strip the sentence, skip it if empty,
close the current chunk when adding the sentence would exceed
`chunk_size`, then append the sentence to the current chunk. -/
def chunkStep (chunk_size : Nat) (st : ChunkState) (sentence : List Char) : ChunkState :=
  let s := strip sentence
  if s.isEmpty then st
  else
    let (chunks, cur, curLen) := st
    if 0 < curLen ∧ chunk_size < curLen + s.length then
      (chunks ++ [sjoin cur], [s], s.length + 1)
    else
      (chunks, cur ++ [s], curLen + s.length + 1)

/-- The trailing `if current_chunk: chunks.append(' '.join(current_chunk))`
of `chunk_text` (app_short.py lines 81-82). -/
def chunkFinish (st : ChunkState) : List (List Char) :=
  if st.2.1.isEmpty then st.1 else st.1 ++ [sjoin st.2.1]

/-- `chunk_text(text, chunk_size)` (app_short.py lines 51-84): split the
text into sentences and accumulate them into chunks of bounded size. -/
def chunk_text (text : List Char) (chunk_size : Nat) : List (List Char) :=
  chunkFinish ((splitSentences text).foldl (chunkStep chunk_size) ([], [], 0))

/-- The stripped, non-empty sentences of the text, in order: exactly the
pieces that the accumulation loop of `chunk_text` distributes into
chunks. -/
def cleanSentences (text : List Char) : List (List Char) :=
  ((splitSentences text).map strip).filter (fun s => !s.isEmpty)

/-- A chunk piece as the loop keeps them: non-empty, with no whitespace
at either edge. -/
def GoodPiece (e : List Char) : Prop :=
  e ≠ [] ∧ headIsSpace e = false ∧ lastIsSpace e = false

/-! ## Audio model

A WAV file is its header parameters (`getparams`) plus raw frame data,
one `Nat` per byte. -/

/-- The header fields of a WAV file that `merge_wav_files` reads from its
first input (app_short.py lines 122-126). -/
structure WavParams where
  framerate : Nat
  nchannels : Nat
  sampwidth : Nat
deriving DecidableEq

/-- A WAV file: header parameters plus raw frame bytes. -/
structure WavFile where
  params : WavParams
  bytes : List Nat
deriving DecidableEq

/-- `add_silence(duration_ms, sample_rate, channels, sampwidth)`
(app_short.py lines 111-115): `num_frames = int(sample_rate * duration_ms
/ 1000)` — Python's `int()` truncates the nonnegative quotient, which is
`Nat` floor division — then `num_frames * channels * sampwidth` zero
bytes. -/
def add_silence (duration_ms sample_rate channels sampwidth : Nat) : List Nat :=
  List.replicate (sample_rate * duration_ms / 1000 * channels * sampwidth) 0

/-- The `for i, wav_file in enumerate(wav_files)` loop of
`merge_wav_files` (app_short.py lines 133-140): write each file's frames,
and after every file except the last a silence block computed from the
FIRST file's parameters. -/
def mergeLoop (params : WavParams) (pause_ms : Nat) : List WavFile → List Nat
  | [] => []
  | [f] => f.bytes
  | f :: f2 :: rest =>
      f.bytes ++
        add_silence pause_ms params.framerate params.nchannels params.sampwidth ++
          mergeLoop params pause_ms (f2 :: rest)

/-- `merge_wav_files(wav_files, output_path, pause_between_chunks_ms)`
(app_short.py lines 117-144): reads the parameters of `wav_files[0]`
(an `IndexError`, i.e. `none`, on an empty list), stamps them on the
output, and concatenates every file's raw frames with silence between
consecutive files.  The result models the written output file `(header
parameters, frame bytes)`. -/
def merge_wav_files (wav_files : List WavFile) (pause_between_chunks_ms : Nat) :
    Option (WavParams × List Nat) :=
  match wav_files with
  | [] => none
  | f :: rest => some (f.params, mergeLoop f.params pause_between_chunks_ms (f :: rest))

/-- The frame count the `wave` module reports for a data buffer:
bytes divided by the frame size `nchannels * sampwidth` (used by `main`
at app_short.py lines 181-184 to compute the duration). -/
def frame_count (params : WavParams) (bytes : List Nat) : Nat :=
  bytes.length / (params.nchannels * params.sampwidth)

/-! ## Dispatch model

`generate_audio_chunk` (app_short.py lines 86-109) launches the external
synthesis subprocess once and reports success iff the subprocess exits
zero.  The external engine is modelled as an oracle
`syn : Nat → Nat → Bool`: `syn chunk attempt` is the result the engine
would give on its `attempt`-th invocation for `chunk` (attempts counted
from 1). -/

/-- `generate_audio_chunk(text, output_path, chunk_num)` (app_short.py
lines 86-109): a single `subprocess.run`, i.e. the engine's first (and
only) attempt for this chunk; `True` on success, `False` on
`CalledProcessError`. -/
def generate_audio_chunk (syn : Nat → Nat → Bool) (chunk_num : Nat) : Bool :=
  syn chunk_num 1

/-- The chunk loop of `main` (app_short.py lines 165-171): for chunks
numbered `1..numChunks`, call `generate_audio_chunk` once and keep the
chunk number when it succeeded.  Returns the chunk numbers whose audio
files enter the merge, in chunk order. -/
def runDispatch (syn : Nat → Nat → Bool) (numChunks : Nat) : List Nat :=
  (List.range numChunks).filterMap
    (fun k => if generate_audio_chunk syn (k + 1) then some (k + 1) else none)

/-- The chunks `main` skips with `Warning: Skipping failed chunk i`
(app_short.py line 171), in chunk order. -/
def skippedChunks (syn : Nat → Nat → Bool) (numChunks : Nat) : List Nat :=
  (List.range numChunks).filterMap
    (fun k => if generate_audio_chunk syn (k + 1) then none else some (k + 1))

/-- Steps 3-4 of `main` (app_short.py lines 163-191): generate the per
chunk audio files (`wavOf i` is the artifact the engine produced for
chunk `i`), and merge them when at least one exists; with zero successes
the merge is skipped and only a message is printed.  The first component
is the written final output file (`none` when nothing is written), the
second the process exit status: the script never calls `sys.exit` and no
exception escapes `main` on either branch, so the interpreter exits 0. -/
def mainMerge (syn : Nat → Nat → Bool) (wavOf : Nat → WavFile)
    (numChunks pause : Nat) : Option (WavParams × List Nat) × Nat :=
  let audio_files := (runDispatch syn numChunks).map wavOf
  if audio_files.isEmpty then (none, 0)
  else (merge_wav_files audio_files pause, 0)

/-- Modelled from the spec (§4.5): a silence block of
`round(sample_rate * pause_duration_ms / 1000)` frames, rounding half up.
Compared against the source's `add_silence`, which truncates. -/
def specRoundFrames (sample_rate pause_ms : Nat) : Nat :=
  (sample_rate * pause_ms + 500) / 1000

/-! ## Concrete inputs used by counterexamples and witnesses -/

/-- A WAV file at 8000 Hz, mono, 16-bit, with two data bytes. -/
def fmtA : WavFile := ⟨⟨8000, 1, 2⟩, [1, 2]⟩

/-- A WAV file at 16000 Hz — a sample-rate mismatch with `fmtA`. -/
def fmtB : WavFile := ⟨⟨16000, 1, 2⟩, [3, 4]⟩

/-- A 3 Hz mono 16-bit WAV file holding exactly one frame. -/
def cex5a : WavFile := ⟨⟨3, 1, 2⟩, [7, 7]⟩

/-- A second 3 Hz mono 16-bit WAV file holding exactly one frame. -/
def cex5b : WavFile := ⟨⟨3, 1, 2⟩, [9, 9]⟩

/-- An engine for which every invocation of chunk 2 fails and every other
chunk succeeds. -/
def synFail2 : Nat → Nat → Bool := fun c _ => c != 2

/-- An engine that fails every first attempt but would succeed from the
second attempt on. -/
def synSecondTry : Nat → Nat → Bool := fun _ attempt => decide (2 ≤ attempt)

/-- An engine for which every invocation fails. -/
def synAllFail : Nat → Nat → Bool := fun _ _ => false

/-- Chunk `i`'s artifact: 1000 Hz, mono, 8-bit, one byte equal to `i`. -/
def wav3 : Nat → WavFile := fun i => ⟨⟨1000, 1, 1⟩, [i]⟩

/-! ## Lemmas about `sjoin` -/

theorem sjoin_cons_ne (a : List Char) (L : List (List Char)) (h : L ≠ []) :
    sjoin (a :: L) = a ++ ' ' :: sjoin L := by
  cases L with
  | nil => exact absurd rfl h
  | cons b L => rfl

theorem sjoin_append_singleton (L : List (List Char)) (σ : List Char) (h : L ≠ []) :
    sjoin (L ++ [σ]) = sjoin L ++ ' ' :: σ := by
  induction L with
  | nil => exact absurd rfl h
  | cons a L ih =>
      cases L with
      | nil => rfl
      | cons b L =>
          rw [List.cons_append, sjoin_cons_ne a ((b :: L) ++ [σ]) (by simp),
            ih (by simp), sjoin_cons_ne a (b :: L) (by simp), List.append_assoc]
          rfl

theorem sjoin_glue (A : List (List Char)) (x y : List Char) (rest : List (List Char)) :
    sjoin (A ++ (x ++ ' ' :: y) :: rest) = sjoin (A ++ x :: y :: rest) := by
  induction A with
  | nil =>
      cases rest with
      | nil => rfl
      | cons r rs =>
          rw [List.nil_append, List.nil_append,
            sjoin_cons_ne (x ++ ' ' :: y) (r :: rs) (by simp),
            sjoin_cons_ne x (y :: r :: rs) (by simp),
            sjoin_cons_ne y (r :: rs) (by simp), List.append_assoc]
          rfl
  | cons a A ih =>
      rw [List.cons_append, List.cons_append,
        sjoin_cons_ne a (A ++ (x ++ ' ' :: y) :: rest) (by simp),
        sjoin_cons_ne a (A ++ x :: y :: rest) (by simp), ih]

/-! ## Claim C1: what joining the chunks reproduces -/

theorem chunkFold_join (size : Nat) (ss : List (List Char)) :
    ∀ (chunks cur : List (List Char)) (len : Nat), (len = 0 ↔ cur = []) →
      sjoin (chunkFinish (ss.foldl (chunkStep size) (chunks, cur, len))) =
        sjoin (chunkFinish (chunks, cur, len) ++
          (ss.map strip).filter (fun s => !s.isEmpty)) := by
  induction ss with
  | nil => intro chunks cur len hinv; simp [List.foldl]
  | cons s ss ih =>
      intro chunks cur len hinv
      rw [List.foldl_cons]
      by_cases hs : (strip s).isEmpty
      · rw [show chunkStep size (chunks, cur, len) s = (chunks, cur, len) from by
          simp [chunkStep, hs]]
        rw [ih chunks cur len hinv]
        simp [hs]
      · have hmap : ((s :: ss).map strip).filter (fun t => !t.isEmpty) =
            strip s :: (ss.map strip).filter (fun t => !t.isEmpty) := by
          simp [hs]
        by_cases hflush : 0 < len ∧ size < len + (strip s).length
        · rw [show chunkStep size (chunks, cur, len) s =
              (chunks ++ [sjoin cur], [strip s], (strip s).length + 1) from by
            simp [chunkStep, hs, hflush]]
          have hcur : ¬ cur = [] := by
            intro hc
            have h0 : len = 0 := hinv.mpr hc
            have h1 : 0 < len := hflush.1
            omega
          rw [ih (chunks ++ [sjoin cur]) [strip s] ((strip s).length + 1) (by simp)]
          rw [hmap]
          have h1 : chunkFinish (chunks ++ [sjoin cur], [strip s],
              (strip s).length + 1) = chunks ++ [sjoin cur, strip s] := by
            simp [chunkFinish, sjoin]
          have h2 : chunkFinish (chunks, cur, len) = chunks ++ [sjoin cur] := by
            simp [chunkFinish, hcur]
          rw [h1, h2]
          simp [List.append_assoc]
        · rw [show chunkStep size (chunks, cur, len) s =
              (chunks, cur ++ [strip s], len + (strip s).length + 1) from by
            simp [chunkStep, hs, hflush]]
          rw [ih chunks (cur ++ [strip s]) (len + (strip s).length + 1)
            (by constructor <;> intro h <;> simp_all)]
          rw [hmap]
          by_cases hcur : cur = []
          · subst hcur
            simp [chunkFinish, sjoin]
          · have h1 : chunkFinish (chunks, cur ++ [strip s], len + (strip s).length + 1) =
                chunks ++ [sjoin cur ++ ' ' :: strip s] := by
              simp [chunkFinish, sjoin_append_singleton cur (strip s) hcur]
            have h2 : chunkFinish (chunks, cur, len) = chunks ++ [sjoin cur] := by
              simp [chunkFinish, hcur]
            rw [h1, h2, List.append_assoc, List.append_assoc, List.singleton_append,
              List.cons_append, sjoin_glue]
            simp

/-- Joining the chunks of `chunk_text` with single spaces yields exactly
the stripped non-empty sentences joined with single spaces, for every
text and every chunk size. -/
theorem chunk_text_join (text : List Char) (size : Nat) :
    sjoin (chunk_text text size) = sjoin (cleanSentences text) := by
  have h := chunkFold_join size (splitSentences text) [] [] 0 (by simp)
  simpa [chunk_text, cleanSentences, chunkFinish] using h

/-! ## Claim C6: the size bound on chunks -/

theorem chunkFold_size (size : Nat) (A : List (List Char)) (ss : List (List Char)) :
    ∀ (chunks cur : List (List Char)) (len : Nat),
      (∀ s ∈ ss, strip s ∈ A) →
      (∀ c ∈ chunks, c.length ≤ size ∨ c ∈ A) →
      (len = 0 ↔ cur = []) →
      (cur = [] ∨ (sjoin cur).length + 1 = len) →
      (cur = [] ∨ (sjoin cur).length ≤ size ∨ sjoin cur ∈ A) →
      ∀ c ∈ chunkFinish (ss.foldl (chunkStep size) (chunks, cur, len)),
        c.length ≤ size ∨ c ∈ A := by
  induction ss with
  | nil =>
      intro chunks cur len _ hchunks _ _ hgood c hc
      cases cur with
      | nil =>
          simp only [List.foldl, chunkFinish, List.isEmpty_nil, if_pos] at hc
          exact hchunks c hc
      | cons b t =>
          simp only [List.foldl, chunkFinish, List.isEmpty_cons, Bool.false_eq_true,
            if_false, List.mem_append, List.mem_singleton] at hc
          rcases hc with hc | hc
          · exact hchunks c hc
          · subst hc
            rcases hgood with h | h
            · exact absurd h (by simp)
            · exact h
  | cons s ss ih =>
      intro chunks cur len hss hchunks hinv hlen hgood
      rw [List.foldl_cons]
      have hssA : ∀ t ∈ ss, strip t ∈ A := fun t ht => hss t (List.mem_cons_of_mem s ht)
      have hsA : strip s ∈ A := hss s (List.mem_cons_self s ss)
      by_cases hs : (strip s).isEmpty
      · rw [show chunkStep size (chunks, cur, len) s = (chunks, cur, len) from by
          simp [chunkStep, hs]]
        exact ih chunks cur len hssA hchunks hinv hlen hgood
      · by_cases hflush : 0 < len ∧ size < len + (strip s).length
        · rw [show chunkStep size (chunks, cur, len) s =
              (chunks ++ [sjoin cur], [strip s], (strip s).length + 1) from by
            simp [chunkStep, hs, hflush]]
          have hcur : cur ≠ [] := by
            intro hc
            have h0 : len = 0 := hinv.mpr hc
            have h1 : 0 < len := hflush.1
            omega
          refine ih (chunks ++ [sjoin cur]) [strip s] ((strip s).length + 1)
            hssA ?_ (by simp) (Or.inr rfl) (Or.inr (Or.inr hsA))
          intro c hc
          rcases List.mem_append.mp hc with hc | hc
          · exact hchunks c hc
          · rw [List.mem_singleton.mp hc]
            rcases hgood with h | h
            · exact absurd h hcur
            · exact h
        · rw [show chunkStep size (chunks, cur, len) s =
              (chunks, cur ++ [strip s], len + (strip s).length + 1) from by
            simp [chunkStep, hs, hflush]]
          by_cases hcur : cur = []
          · subst hcur
            have h0 : len = 0 := hinv.mpr rfl
            subst h0
            refine ih chunks ([] ++ [strip s]) (0 + (strip s).length + 1)
              hssA hchunks (by simp) ?_ ?_
            · simp [sjoin]
            · exact Or.inr (Or.inr (by simpa [sjoin] using hsA))
          · have hj : sjoin (cur ++ [strip s]) = sjoin cur ++ ' ' :: strip s :=
              sjoin_append_singleton cur (strip s) hcur
            have hlen' : (sjoin cur).length + 1 = len := hlen.resolve_left hcur
            refine ih chunks (cur ++ [strip s]) (len + (strip s).length + 1)
              hssA hchunks (by simp) ?_ ?_
            · rw [hj]
              simp only [List.length_append, List.length_cons]
              omega
            · have hfit : len + (strip s).length ≤ size := by
                rcases Nat.lt_or_ge size (len + (strip s).length) with h | h
                · exact absurd ⟨by omega, h⟩ hflush
                · exact h
              refine Or.inr (Or.inl ?_)
              rw [hj]
              simp only [List.length_append, List.length_cons]
              omega

/-- Every chunk of `chunk_text` has length at most `size`, except that a
chunk which is a single (stripped) sentence of the text may exceed the
bound, in which case it is that sentence kept intact. -/
theorem chunk_text_size_bound (text : List Char) (size : Nat) (_hsize : 0 < size) :
    ∀ c ∈ chunk_text text size,
      c.length ≤ size ∨ (c ∈ (splitSentences text).map strip ∧ size < c.length) := by
  intro c hc
  have h := chunkFold_size size ((splitSentences text).map strip)
    (splitSentences text) [] [] 0
    (fun s hs => List.mem_map_of_mem strip hs)
    (by simp) (by simp) (Or.inl rfl) (Or.inl rfl) c hc
  rcases h with h | h
  · exact Or.inl h
  · rcases le_or_lt c.length size with hle | hlt
    · exact Or.inl hle
    · exact Or.inr ⟨h, hlt⟩

/-! ## Claim C8: whitespace-only input -/

theorem dropWhile_isSpace_of_all (l : List Char) (h : ∀ c ∈ l, isSpaceChar c = true) :
    l.dropWhile isSpaceChar = [] := by
  induction l with
  | nil => rfl
  | cons c rest ih =>
      rw [List.dropWhile_cons, h c (List.mem_cons_self c rest)]
      exact ih (fun d hd => h d (List.mem_cons_of_mem c hd))

theorem strip_of_all_space (l : List Char) (h : ∀ c ∈ l, isSpaceChar c = true) :
    strip l = [] := by
  unfold strip
  rw [dropWhile_isSpace_of_all l h]
  rfl

theorem splitAuxF_of_all_space (l : List Char) (h : ∀ c ∈ l, isSpaceChar c = true) :
    ∀ (fuel : Nat) (acc : List Char), l.length < fuel →
      splitAuxF fuel l acc = [acc.reverse ++ l] := by
  induction l with
  | nil =>
      intro fuel acc hfuel
      cases fuel with
      | zero => omega
      | succ n => simp [splitAuxF]
  | cons c rest ih =>
      intro fuel acc hfuel
      cases fuel with
      | zero => omega
      | succ n =>
          have hc : isSpaceChar c = true := h c (List.mem_cons_self c rest)
          have hsent : isSentEnd c = false := by
            cases hx : isSentEnd c
            · rfl
            · simp only [isSentEnd, Bool.or_eq_true, beq_iff_eq] at hx
              rcases hx with (h1 | h1) | h1 <;>
                (subst h1; exact absurd hc (by decide))
          rw [splitAuxF, hsent]
          simp only [Bool.false_and, Bool.false_eq_true, if_false]
          rw [ih (fun d hd => h d (List.mem_cons_of_mem c hd)) n (c :: acc)
            (by simpa using Nat.lt_of_succ_lt_succ hfuel)]
          simp

/-- Empty or whitespace-only input yields an empty chunk sequence. -/
theorem chunk_text_whitespace (text : List Char) (size : Nat)
    (h : ∀ c ∈ text, isSpaceChar c = true) :
    chunk_text text size = [] := by
  have hsplit : splitSentences text = [text] := by
    unfold splitSentences
    rw [splitAuxF_of_all_space text h (text.length + 1) [] (Nat.lt_succ_self _)]
    rfl
  unfold chunk_text
  rw [hsplit]
  simp only [List.foldl_cons, List.foldl_nil]
  rw [show chunkStep size ([], [], 0) text = ([], [], 0) from by
    simp [chunkStep, strip_of_all_space text h]]
  rfl

/-- Witness for `chunk_text_whitespace`: a concrete two-character
whitespace text. -/
theorem chunk_text_whitespace_witness :
    (∀ c ∈ (' ' :: '\t' :: []), isSpaceChar c = true) ∧
      chunk_text (' ' :: '\t' :: []) 5 = [] :=
  ⟨by decide, chunk_text_whitespace (' ' :: '\t' :: []) 5 (by decide)⟩

/-! ## Claim C10: chunks are non-empty and trimmed -/

theorem headIsSpace_dropWhile (l : List Char) :
    headIsSpace (l.dropWhile isSpaceChar) = false := by
  induction l with
  | nil => rfl
  | cons c rest ih =>
      rw [List.dropWhile_cons]
      by_cases hc : isSpaceChar c = true
      · rw [if_pos hc]
        exact ih
      · rw [if_neg hc]
        exact Bool.eq_false_iff.mpr hc

theorem headIsSpace_append (l l' : List Char) (h : l ≠ []) :
    headIsSpace (l ++ l') = headIsSpace l := by
  cases l with
  | nil => exact absurd rfl h
  | cons c rest => rfl

theorem lastIsSpace_cons (c : Char) (l : List Char) (h : l ≠ []) :
    lastIsSpace (c :: l) = lastIsSpace l := by
  unfold lastIsSpace
  rw [List.reverse_cons]
  exact headIsSpace_append l.reverse [c] (by simpa using h)

theorem lastIsSpace_append (l l' : List Char) (h : l' ≠ []) :
    lastIsSpace (l ++ l') = lastIsSpace l' := by
  unfold lastIsSpace
  rw [List.reverse_append]
  exact headIsSpace_append l'.reverse l.reverse (by simpa using h)

theorem lastIsSpace_dropWhile (l : List Char) (h : lastIsSpace l = false) :
    lastIsSpace (l.dropWhile isSpaceChar) = false := by
  induction l with
  | nil => rfl
  | cons c rest ih =>
      rw [List.dropWhile_cons]
      by_cases hc : isSpaceChar c = true
      · rw [if_pos hc]
        cases rest with
        | nil =>
            rw [show lastIsSpace [c] = isSpaceChar c from rfl, hc] at h
            exact absurd h (by simp)
        | cons d t =>
            refine ih ?_
            rw [← lastIsSpace_cons c (d :: t) (by simp)]
            exact h
      · rw [if_neg hc]
        exact h

theorem dropWhile_eq_self_of_head (l : List Char) (h : headIsSpace l = false) :
    l.dropWhile isSpaceChar = l := by
  cases l with
  | nil => rfl
  | cons c rest =>
      rw [List.dropWhile_cons, if_neg]
      rw [show headIsSpace (c :: rest) = isSpaceChar c from rfl] at h
      simp [h]

theorem headIsSpace_strip (l : List Char) : headIsSpace (strip l) = false := by
  unfold strip
  have hu : headIsSpace (l.dropWhile isSpaceChar) = false := headIsSpace_dropWhile l
  have hur : lastIsSpace (l.dropWhile isSpaceChar).reverse = false := by
    unfold lastIsSpace
    rw [List.reverse_reverse]
    exact hu
  have hv := lastIsSpace_dropWhile (l.dropWhile isSpaceChar).reverse hur
  exact hv

theorem lastIsSpace_strip (l : List Char) : lastIsSpace (strip l) = false := by
  unfold strip lastIsSpace
  rw [List.reverse_reverse]
  exact headIsSpace_dropWhile _

theorem strip_eq_self (l : List Char) (h1 : headIsSpace l = false)
    (h2 : lastIsSpace l = false) : strip l = l := by
  unfold strip
  rw [dropWhile_eq_self_of_head l h1, dropWhile_eq_self_of_head l.reverse h2,
    List.reverse_reverse]

theorem goodPiece_strip (s : List Char) (h : ¬ (strip s).isEmpty) :
    GoodPiece (strip s) :=
  ⟨by simpa using h, headIsSpace_strip s, lastIsSpace_strip s⟩

theorem sjoin_good (L : List (List Char)) (hL : L ≠ [])
    (h : ∀ e ∈ L, GoodPiece e) : GoodPiece (sjoin L) := by
  induction L with
  | nil => exact absurd rfl hL
  | cons a L ih =>
      cases L with
      | nil => exact h a (List.mem_cons_self a [])
      | cons b t =>
          have hrest : GoodPiece (sjoin (b :: t)) :=
            ih (by simp) (fun e he => h e (List.mem_cons_of_mem a he))
          have ha : GoodPiece a := h a (List.mem_cons_self a (b :: t))
          rw [sjoin_cons_ne a (b :: t) (by simp)]
          refine ⟨by simp [ha.1], ?_, ?_⟩
          · rw [headIsSpace_append a (' ' :: sjoin (b :: t)) ha.1]
            exact ha.2.1
          · rw [lastIsSpace_append a (' ' :: sjoin (b :: t)) (by simp),
              lastIsSpace_cons ' ' (sjoin (b :: t)) hrest.1]
            exact hrest.2.2

theorem chunkFold_good (size : Nat) (ss : List (List Char)) :
    ∀ (chunks cur : List (List Char)) (len : Nat),
      (∀ c ∈ chunks, GoodPiece c) →
      (∀ e ∈ cur, GoodPiece e) →
      (len = 0 ↔ cur = []) →
      ∀ c ∈ chunkFinish (ss.foldl (chunkStep size) (chunks, cur, len)), GoodPiece c := by
  induction ss with
  | nil =>
      intro chunks cur len hchunks hcur _ c hc
      cases cur with
      | nil =>
          simp only [List.foldl, chunkFinish, List.isEmpty_nil, if_pos] at hc
          exact hchunks c hc
      | cons b t =>
          simp only [List.foldl, chunkFinish, List.isEmpty_cons, Bool.false_eq_true,
            if_false, List.mem_append, List.mem_singleton] at hc
          rcases hc with hc | hc
          · exact hchunks c hc
          · subst hc
            exact sjoin_good (b :: t) (by simp) hcur
  | cons s ss ih =>
      intro chunks cur len hchunks hcur hinv
      rw [List.foldl_cons]
      by_cases hs : (strip s).isEmpty
      · rw [show chunkStep size (chunks, cur, len) s = (chunks, cur, len) from by
          simp [chunkStep, hs]]
        exact ih chunks cur len hchunks hcur hinv
      · have hσ : GoodPiece (strip s) := goodPiece_strip s hs
        by_cases hflush : 0 < len ∧ size < len + (strip s).length
        · rw [show chunkStep size (chunks, cur, len) s =
              (chunks ++ [sjoin cur], [strip s], (strip s).length + 1) from by
            simp [chunkStep, hs, hflush]]
          have hcne : cur ≠ [] := by
            intro hc
            have h0 : len = 0 := hinv.mpr hc
            have h1 : 0 < len := hflush.1
            omega
          refine ih (chunks ++ [sjoin cur]) [strip s] ((strip s).length + 1) ?_ ?_ (by simp)
          · intro c hc
            rcases List.mem_append.mp hc with hc | hc
            · exact hchunks c hc
            · rw [List.mem_singleton.mp hc]
              exact sjoin_good cur hcne hcur
          · intro e he
            rw [List.mem_singleton.mp he]
            exact hσ
        · rw [show chunkStep size (chunks, cur, len) s =
              (chunks, cur ++ [strip s], len + (strip s).length + 1) from by
            simp [chunkStep, hs, hflush]]
          refine ih chunks (cur ++ [strip s]) (len + (strip s).length + 1)
            hchunks ?_ (by simp)
          intro e he
          rcases List.mem_append.mp he with he | he
          · exact hcur e he
          · rw [List.mem_singleton.mp he]
            exact hσ

/-- Every chunk of `chunk_text` is non-empty and carries no leading or
trailing whitespace (stripping it is a no-op). -/
theorem chunk_text_trimmed (text : List Char) (size : Nat) :
    ∀ c ∈ chunk_text text size, c ≠ [] ∧ strip c = c := by
  intro c hc
  have hg : GoodPiece c :=
    chunkFold_good size (splitSentences text) [] [] 0
      (by simp) (by simp) (by simp) c hc
  exact ⟨hg.1, strip_eq_self c hg.2.1 hg.2.2⟩

/-- Witness for `chunk_text_trimmed`: the text `" a. b "` yields the one
chunk `"a b"`, non-empty and stripped. -/
theorem chunk_text_trimmed_witness :
    ('a' :: ' ' :: 'b' :: []) ∈
        chunk_text (' ' :: 'a' :: '.' :: ' ' :: 'b' :: ' ' :: []) 10 ∧
      (('a' :: ' ' :: 'b' :: []) ≠ [] ∧
        strip ('a' :: ' ' :: 'b' :: []) = ('a' :: ' ' :: 'b' :: [])) :=
  ⟨by decide,
    chunk_text_trimmed (' ' :: 'a' :: '.' :: ' ' :: 'b' :: ' ' :: []) 10
      ('a' :: ' ' :: 'b' :: []) (by decide)⟩

/-! ## Claim C1 counterexample -/

/-- Counterexample to C1 as stated: for the text `"a. b"` the joined
chunks read `"a b"` — the sentence-ending period removed by the splitter
is not restored, which is not a leading/trailing-whitespace divergence
from the (stripped) input `"a. b"`. -/
theorem chunk_text_join_cex :
    strip (sjoin (chunk_text ('a' :: '.' :: ' ' :: 'b' :: []) 10)) ≠
      strip ('a' :: '.' :: ' ' :: 'b' :: []) := by
  decide

/-! ## Claim C2: the merge performs no format validation -/

/-- Counterexample to C2: two segments with different sample rates merge
without any error; the output carries the first file's parameters and the
concatenation of both files' bytes. -/
theorem merge_mismatch_cex :
    fmtB.params.framerate ≠ fmtA.params.framerate ∧
      merge_wav_files [fmtA, fmtB] 0 = some (fmtA.params, [1, 2, 3, 4]) := by
  decide

/-- Amended C2: the merge never fails on a non-empty input — formats of
later segments are never inspected, only the first file's header is read
and stamped on the output. -/
theorem merge_no_format_check (files : List WavFile) (pause : Nat) :
    (merge_wav_files files pause).isSome = true ↔ files ≠ [] := by
  cases files <;> simp [merge_wav_files]

/-! ## Claim C9: the merged bytes depend only on the inputs -/

theorem mergeLoop_congr (P : WavParams) (pause : Nat) :
    ∀ fs fs' : List WavFile, fs.map WavFile.bytes = fs'.map WavFile.bytes →
      mergeLoop P pause fs = mergeLoop P pause fs' := by
  intro fs
  induction fs with
  | nil =>
      intro fs' h
      cases fs' with
      | nil => rfl
      | cons f' rest' => simp at h
  | cons f rest ih =>
      intro fs' h
      cases fs' with
      | nil => simp at h
      | cons f' rest' =>
          simp only [List.map_cons, List.cons.injEq] at h
          obtain ⟨hf, hrest⟩ := h
          cases rest with
          | nil =>
              cases rest' with
              | nil => simp only [mergeLoop, hf]
              | cons g' t' => simp at hrest
          | cons g t =>
              cases rest' with
              | nil => simp at hrest
              | cons g' t' =>
                  simp only [mergeLoop]
                  rw [hf, ih (g' :: t') hrest]

/-- The frame data `merge_wav_files` produces is a function of the input
files' byte contents, the first file's header parameters and the pause
alone: two merges over equal inputs give byte-identical output. -/
theorem merge_wav_files_deterministic (files files' : List WavFile) (pause : Nat)
    (hb : files.map WavFile.bytes = files'.map WavFile.bytes)
    (hp : files.head?.map WavFile.params = files'.head?.map WavFile.params) :
    merge_wav_files files pause = merge_wav_files files' pause := by
  cases files with
  | nil =>
      cases files' with
      | nil => rfl
      | cons f' rest' => simp at hb
  | cons f rest =>
      cases files' with
      | nil => simp at hb
      | cons f' rest' =>
          simp only [List.head?_cons, Option.map_some'] at hp
          have hpp : f.params = f'.params := by
            injection hp
          simp only [merge_wav_files]
          rw [hpp, mergeLoop_congr f'.params pause (f :: rest) (f' :: rest') hb]

/-- Witness for `merge_wav_files_deterministic`: two input lists with the
same bytes and the same first-file parameters (the second file's header
differs, which the merge never reads) produce identical output. -/
theorem merge_wav_files_deterministic_witness :
    ([fmtA, fmtB].map WavFile.bytes =
        [fmtA, ⟨⟨999, 9, 9⟩, [3, 4]⟩].map WavFile.bytes) ∧
      ([fmtA, fmtB].head?.map WavFile.params =
        [fmtA, ⟨⟨999, 9, 9⟩, [3, 4]⟩].head?.map WavFile.params) ∧
      merge_wav_files [fmtA, fmtB] 5 =
        merge_wav_files [fmtA, ⟨⟨999, 9, 9⟩, [3, 4]⟩] 5 :=
  ⟨by decide, by decide,
    merge_wav_files_deterministic [fmtA, fmtB] [fmtA, ⟨⟨999, 9, 9⟩, [3, 4]⟩] 5
      (by decide) (by decide)⟩

/-! ## Claim C5: the silence length uses truncation, not rounding -/

theorem add_silence_length (duration_ms sample_rate channels sampwidth : Nat) :
    (add_silence duration_ms sample_rate channels sampwidth).length =
      sample_rate * duration_ms / 1000 * channels * sampwidth := by
  simp [add_silence]

theorem mergeLoop_length (P : WavParams) (pause : Nat) :
    ∀ fs : List WavFile,
      (mergeLoop P pause fs).length =
        (fs.map (fun f => f.bytes.length)).sum +
          (fs.length - 1) * (P.framerate * pause / 1000 * P.nchannels * P.sampwidth) := by
  intro fs
  induction fs with
  | nil => simp [mergeLoop]
  | cons f rest ih =>
      cases rest with
      | nil => simp [mergeLoop]
      | cons g t =>
          simp only [mergeLoop, List.length_append, add_silence_length,
            List.map_cons, List.sum_cons, List.length_cons, Nat.add_sub_cancel] at ih ⊢
          rw [ih, Nat.add_mul, Nat.one_mul]
          omega

theorem map_sum_div (m : Nat) :
    ∀ fs : List WavFile, (∀ f ∈ fs, m ∣ f.bytes.length) →
      (fs.map (fun f => f.bytes.length)).sum =
        m * (fs.map (fun f => f.bytes.length / m)).sum := by
  intro fs
  induction fs with
  | nil => simp
  | cons f rest ih =>
      intro h
      simp only [List.map_cons, List.sum_cons]
      rw [ih (fun g hg => h g (List.mem_cons_of_mem f hg)), Nat.mul_add]
      congr 1
      exact (Nat.mul_div_cancel' (h f (List.mem_cons_self f rest))).symm

/-- Counterexample to C5 as stated: at sample rate 3 Hz and a 500 ms
pause, the code inserts `int(3*500/1000) = 1` silence frame, so merging
two one-frame segments yields 3 frames, while the spec formula with
`round(3*500/1000) = 2` predicts 4. -/
theorem merge_frame_count_cex :
    (merge_wav_files [cex5a, cex5b] 500).map (fun t => frame_count t.1 t.2) =
        some 3 ∧
      frame_count cex5a.params cex5a.bytes + frame_count cex5b.params cex5b.bytes +
          (2 - 1) * specRoundFrames 3 500 = 4 ∧
      (3 : Nat) ≠ 4 := by
  decide

/-- Amended C5: for `k` homogeneous, frame-aligned segments the merged
track holds `Σ fᵢ + (k-1) * (r*p/1000)` frames, the silence length being
the TRUNCATED `int(r*p/1000)`, not `round(r*p/1000)`. -/
theorem merge_frame_count (P : WavParams) (files : List WavFile) (pause : Nat)
    (hne : files ≠ [])
    (hP : ∀ f ∈ files, f.params = P)
    (hpos : 0 < P.nchannels * P.sampwidth)
    (halign : ∀ f ∈ files, P.nchannels * P.sampwidth ∣ f.bytes.length) :
    ∃ t, merge_wav_files files pause = some t ∧
      frame_count t.1 t.2 =
        (files.map (fun f => f.bytes.length / (P.nchannels * P.sampwidth))).sum +
          (files.length - 1) * (P.framerate * pause / 1000) := by
  cases files with
  | nil => exact absurd rfl hne
  | cons f rest =>
      have hfP : f.params = P := hP f (List.mem_cons_self f rest)
      refine ⟨(f.params, mergeLoop f.params pause (f :: rest)), rfl, ?_⟩
      rw [hfP]
      unfold frame_count
      rw [mergeLoop_length P pause (f :: rest),
        map_sum_div (P.nchannels * P.sampwidth) (f :: rest) halign,
        show P.framerate * pause / 1000 * P.nchannels * P.sampwidth =
          P.framerate * pause / 1000 * (P.nchannels * P.sampwidth) from by ring,
        show ((f :: rest).length - 1) * (P.framerate * pause / 1000 *
            (P.nchannels * P.sampwidth)) =
          (P.nchannels * P.sampwidth) * (((f :: rest).length - 1) *
            (P.framerate * pause / 1000)) from by ring,
        ← Nat.mul_add, Nat.mul_div_cancel_left _ hpos]

/-- Witness for `merge_frame_count`: two one-frame 3 Hz segments and a
500 ms pause give a 3-frame track. -/
theorem merge_frame_count_witness :
    ([cex5a, cex5b] ≠ ([] : List WavFile)) ∧
      (∀ f ∈ [cex5a, cex5b], f.params = (⟨3, 1, 2⟩ : WavParams)) ∧
      (0 < (⟨3, 1, 2⟩ : WavParams).nchannels * (⟨3, 1, 2⟩ : WavParams).sampwidth) ∧
      (∀ f ∈ [cex5a, cex5b],
        (⟨3, 1, 2⟩ : WavParams).nchannels * (⟨3, 1, 2⟩ : WavParams).sampwidth ∣
          f.bytes.length) ∧
      ∃ t, merge_wav_files [cex5a, cex5b] 500 = some t ∧
        frame_count t.1 t.2 =
          ([cex5a, cex5b].map (fun f => f.bytes.length /
              ((⟨3, 1, 2⟩ : WavParams).nchannels * (⟨3, 1, 2⟩ : WavParams).sampwidth))).sum +
            ([cex5a, cex5b].length - 1) *
              ((⟨3, 1, 2⟩ : WavParams).framerate * 500 / 1000) :=
  ⟨by decide, by decide, by decide, by decide,
    merge_frame_count ⟨3, 1, 2⟩ [cex5a, cex5b] 500
      (by decide) (by decide) (by decide) (by decide)⟩

/-! ## Claim C3: no retry loop exists -/

/-- Counterexample to C3: with an engine whose first attempt always
fails but whose second attempt would always succeed, every chunk is
finalized as failed — no chunk is ever re-queued or re-attempted. -/
theorem dispatch_no_retry_cex :
    synSecondTry 1 1 = false ∧ synSecondTry 1 2 = true ∧
      runDispatch synSecondTry 3 = [] ∧
      skippedChunks synSecondTry 3 = [1, 2, 3] := by
  decide

/-- Amended C3: each chunk's synthesis is invoked exactly once, so the
entire run outcome depends only on the engine's first attempt per chunk;
results of any later attempt are never consulted. -/
theorem dispatch_first_attempt_only (syn syn' : Nat → Nat → Bool) (n : Nat)
    (h : ∀ i, syn i 1 = syn' i 1) :
    runDispatch syn n = runDispatch syn' n ∧
      skippedChunks syn n = skippedChunks syn' n := by
  constructor
  · unfold runDispatch generate_audio_chunk
    exact List.filterMap_congr (fun k _ => by rw [h (k + 1)])
  · unfold skippedChunks generate_audio_chunk
    exact List.filterMap_congr (fun k _ => by rw [h (k + 1)])

/-- Witness for `dispatch_first_attempt_only`: an engine succeeding from
the second attempt on is indistinguishable from one that always fails. -/
theorem dispatch_first_attempt_only_witness :
    (∀ i, synSecondTry i 1 = synAllFail i 1) ∧
      runDispatch synSecondTry 3 = runDispatch synAllFail 3 ∧
      skippedChunks synSecondTry 3 = skippedChunks synAllFail 3 :=
  ⟨fun _ => rfl,
    dispatch_first_attempt_only synSecondTry synAllFail 3 (fun _ => rfl)⟩

/-! ## Claim C4: a failed chunk leaves one pause, not two -/

/-- Counterexample to C4 as stated: three chunks with chunk 2 permanently
failing produce segment 1, ONE silence block, segment 3 — not the claimed
two consecutive silence blocks — though the skipped report is `[2]`. -/
theorem gap_silence_cex :
    (mainMerge synFail2 wav3 3 1).1 = some (⟨1000, 1, 1⟩, [1, 0, 3]) ∧
      (mainMerge synFail2 wav3 3 1).1 ≠ some (⟨1000, 1, 1⟩, [1, 0, 0, 3]) ∧
      skippedChunks synFail2 3 = [2] := by
  decide

/-- Amended C4: the run is not aborted; the failed chunk contributes no
frames and also no pause of its own — the merger separates the remaining
consecutive successful segments by exactly one silence block, so for 3
chunks with chunk 2 failed the track is segment 1, silence, segment 3,
and the skipped report is `[2]`. -/
theorem gap_no_extra_silence (syn : Nat → Nat → Bool) (wavOf : Nat → WavFile)
    (pause : Nat) (h1 : syn 1 1 = true) (h2 : syn 2 1 = false)
    (h3 : syn 3 1 = true) :
    (mainMerge syn wavOf 3 pause).1 =
      some ((wavOf 1).params,
        (wavOf 1).bytes ++
          (add_silence pause (wavOf 1).params.framerate (wavOf 1).params.nchannels
            (wavOf 1).params.sampwidth ++ (wavOf 3).bytes)) ∧
      skippedChunks syn 3 = [2] := by
  have hd : runDispatch syn 3 = [1, 3] := by
    unfold runDispatch generate_audio_chunk
    simp [List.range_succ, h1, h2, h3]
  constructor
  · unfold mainMerge
    rw [hd]
    simp [merge_wav_files, mergeLoop]
  · unfold skippedChunks generate_audio_chunk
    simp [List.range_succ, h1, h2, h3]

/-- Witness for `gap_no_extra_silence` at the concrete engine `synFail2`
and artifacts `wav3`. -/
theorem gap_no_extra_silence_witness :
    (synFail2 1 1 = true ∧ synFail2 2 1 = false ∧ synFail2 3 1 = true) ∧
      (mainMerge synFail2 wav3 3 1).1 =
        some ((wav3 1).params,
          (wav3 1).bytes ++
            (add_silence 1 (wav3 1).params.framerate (wav3 1).params.nchannels
              (wav3 1).params.sampwidth ++ (wav3 3).bytes)) ∧
      skippedChunks synFail2 3 = [2] :=
  ⟨⟨by decide, by decide, by decide⟩,
    gap_no_extra_silence synFail2 wav3 1 (by decide) (by decide) (by decide)⟩

/-! ## Claim C7: zero successes — no error, exit status 0 -/

/-- Counterexample to C7 as stated: with every chunk failing, `main`
skips the merge, writes nothing, prints a message and the process exits
with status 0 — there is no `EmptyMergeError` and no non-zero exit. -/
theorem empty_run_cex :
    mainMerge synAllFail wav3 2 100 = (none, 0) := by
  decide

/-- Amended C7: whenever zero chunks succeed, the merge is never invoked,
no final output file is written, and the process exits with status 0
after printing a failure message. -/
theorem zero_success_behavior (syn : Nat → Nat → Bool) (wavOf : Nat → WavFile)
    (n pause : Nat) (h : runDispatch syn n = []) :
    mainMerge syn wavOf n pause = (none, 0) := by
  unfold mainMerge
  rw [h]
  rfl

/-- Witness for `zero_success_behavior` at the all-failing engine. -/
theorem zero_success_behavior_witness :
    runDispatch synAllFail 2 = [] ∧
      mainMerge synAllFail wav3 2 100 = (none, 0) :=
  ⟨by decide, zero_success_behavior synAllFail wav3 2 100 (by decide)⟩

/-- Witness for `chunk_text_size_bound`: the text `"aaaa. bb"` with
chunk size 3 — the oversized sentence `"aaaa"` is its own intact chunk,
and the chunk `"bb"` respects the bound. -/
theorem chunk_text_size_bound_witness :
    0 < 3 ∧
      ∀ c ∈ chunk_text ('a' :: 'a' :: 'a' :: 'a' :: '.' :: ' ' :: 'b' :: 'b' :: []) 3,
        c.length ≤ 3 ∨
          (c ∈ (splitSentences
              ('a' :: 'a' :: 'a' :: 'a' :: '.' :: ' ' :: 'b' :: 'b' :: [])).map strip ∧
            3 < c.length) :=
  ⟨by decide,
    chunk_text_size_bound ('a' :: 'a' :: 'a' :: 'a' :: '.' :: ' ' :: 'b' :: 'b' :: []) 3
      (by decide)⟩

end AppShort
